import Mathlib

/-!
Verification of the s-expression reader (`src/reader.rs`).

The Rust source is shallowly embedded: source text is a `List Char`,
tokens are `List Char` slices, `f64` literal values are idealized as
exact rationals (plus infinity/NaN markers), and the recursive-descent
parser is embedded with an explicit remaining-token list.
-/

namespace SExpr

/-- A token, as produced by the tokenizer: a span of source characters. -/
abbrev Tok := List Char

/-- The `(` delimiter character. -/
def lparen : Char := Char.ofNat 40

/-- The `)` delimiter character. -/
def rparen : Char := Char.ofNat 41

/-- The quote delimiter character (ASCII 39). -/
def quoteCh : Char := Char.ofNat 39

/-- The double-quote character (ASCII 34). -/
def dquote : Char := Char.ofNat 34

/-- ASCII whitespace, as recognized by `char::is_whitespace` on ASCII input
(the model restricts sources to ASCII whitespace; `tokenize` in the source
byte-slices one-past a found delimiter, which is only meaningful for
single-byte whitespace). -/
def isWs (c : Char) : Bool :=
  c = Char.ofNat 32 || c = Char.ofNat 9 || c = Char.ofNat 10 ||
  c = Char.ofNat 13 || c = Char.ofNat 11 || c = Char.ofNat 12

/-- The three structural delimiter characters of `"()'"` in `tokenize`. -/
def isDelim (c : Char) : Bool :=
  c = lparen || c = rparen || c = quoteCh

/-- A character that continues an atom token: neither whitespace nor a
structural delimiter (the complement of the `find` pattern in `tokenize`). -/
def isAtomChar (c : Char) : Bool := !(isWs c) && !(isDelim c)

/-- Embedding of `tokenize` (`reader.rs:157`): repeatedly skip leading
whitespace, scan an atom up to the next whitespace/delimiter, and emit each
structural delimiter as its own single-character token.  The Rust loop over
a shrinking slice becomes recursion on the character list: one step either
skips a whitespace character, emits a delimiter token, or emits the maximal
nonempty atom at the head and continues after it. -/
def tokenize : List Char → List Tok
  | [] => []
  | c :: cs =>
    if isWs c then tokenize cs
    else if isDelim c then [c] :: tokenize cs
    else
      ((c :: cs).takeWhile isAtomChar) :: tokenize ((c :: cs).dropWhile isAtomChar)
termination_by l => l.length
decreasing_by
  · simp
  · simp
  · simp only [List.length_cons]
    have h1 : List.dropWhile isAtomChar (c :: cs) = List.dropWhile isAtomChar cs := by
      have hc : isAtomChar c = true := by
        simp only [isAtomChar, Bool.and_eq_true, Bool.not_eq_true']
        exact ⟨by simp_all, by simp_all⟩
      simp [List.dropWhile_cons_of_pos hc]
    rw [h1]
    have h2 : ∀ l : List Char, (l.dropWhile isAtomChar).length ≤ l.length := by
      intro l
      induction l with
      | nil => simp
      | cons a as ih =>
        by_cases h : isAtomChar a
        · rw [List.dropWhile_cons_of_pos h]
          exact Nat.le_trans ih (Nat.le_succ _)
        · rw [List.dropWhile_cons_of_neg h]
    exact Nat.lt_succ_of_le (h2 cs)

/-- The value of an `f64` produced by `str::parse::<f64>`, idealized: a
finite value is the exact rational denoted by the literal (no rounding to
binary, no overflow-to-infinity), and the accepted special spellings
`inf`/`infinity`/`nan` are kept as markers. -/
inductive FloatVal where
  | finite (q : ℚ)
  | inf (neg : Bool)
  | nan
deriving DecidableEq

/-- ASCII decimal digit (Rust `is_ascii_digit`). -/
def isDigitC (c : Char) : Bool := Char.ofNat 48 ≤ c && c ≤ Char.ofNat 57

/-- Numeric value of a digit run, most significant first. -/
def digitsToNat (ds : List Char) : ℕ :=
  ds.foldl (fun acc c => acc * 10 + (c.toNat - 48)) 0

/-- Apply the sign of the parsed literal. -/
def signApply (neg : Bool) (q : ℚ) : ℚ := if neg then -q else q

/-- Embedding of Rust `str::parse::<f64>` for whole tokens: optional sign,
then case-insensitive `inf`/`infinity`/`nan`, or a decimal mantissa
(digits, optional point, optional fraction digits, at least one digit in
all) with an optional `e`/`E` exponent (optional sign, at least one digit).
Any other shape fails.  Finite values are exact rationals (see `FloatVal`). -/
def parseF64 (s : List Char) : Option FloatVal :=
  match s with
  | [] => none
  | _ =>
    let (neg, rest) :=
      match s with
      | c :: r =>
        if c = Char.ofNat 45 then (true, r)
        else if c = Char.ofNat 43 then (false, r)
        else (false, s)
      | [] => (false, s)
    let low := rest.map Char.toLower
    if low = "inf".toList ∨ low = "infinity".toList then some (.inf neg)
    else if low = "nan".toList then some .nan
    else
      let ip := rest.takeWhile isDigitC
      let r1 := rest.dropWhile isDigitC
      let (fp, r2) :=
        match r1 with
        | d :: r =>
          if d = Char.ofNat 46 then (r.takeWhile isDigitC, r.dropWhile isDigitC)
          else (([] : List Char), r1)
        | [] => (([] : List Char), r1)
      if ip = [] ∧ fp = [] then none
      else
        let mant : ℚ := (digitsToNat ip : ℚ) + (digitsToNat fp : ℚ) / (10 : ℚ) ^ fp.length
        match r2 with
        | [] => some (.finite (signApply neg mant))
        | e :: r3 =>
          if e = Char.ofNat 101 ∨ e = Char.ofNat 69 then
            let (eneg, r4) :=
              match r3 with
              | c :: r =>
                if c = Char.ofNat 45 then (true, r)
                else if c = Char.ofNat 43 then (false, r)
                else (false, r3)
              | [] => (false, r3)
            if r4 ≠ [] ∧ r4.all isDigitC then
              let ex : ℤ := if eneg then -(digitsToNat r4 : ℤ) else (digitsToNat r4 : ℤ)
              some (.finite (signApply neg (mant * (10 : ℚ) ^ ex)))
            else none
          else none

/-- Embedding of the zero-copy `Expression` enum (`reader.rs:52`); text
payloads are character lists borrowed from the source. -/
inductive Expression where
  | number (v : FloatVal)
  | bool (b : Bool)
  | str (s : Tok)
  | symbol (s : Tok)
  | list (xs : List Expression)
  | null

/-- Embedding of `OwnedExpression` (`reader.rs:82`); text payloads are
independently owned `String`s. -/
inductive OwnedExpression where
  | number (v : FloatVal)
  | bool (b : Bool)
  | str (s : String)
  | symbol (s : String)
  | list (xs : List OwnedExpression)
  | null

/-- Embedding of `ParseError` (`reader.rs:102`). -/
inductive ParseError where
  | UnexpectedEOF
  | MissingClosingParen
  | UnexpectedClosingParen
deriving DecidableEq

/-- Embedding of `parse_atom` (`reader.rs:254`): single-character fast path
to Symbol; then, if the first character is an ASCII digit, `-` or `+`, an
attempted full-token `f64` parse to Number; then the keyword literals
`true`/`false`/`null`; then a double-quoted token of length ≥ 2 to Str with
the end quotes stripped; otherwise Symbol. -/
def parse_atom (token : Tok) : Expression :=
  if token.length = 1 then .symbol token
  else
    let numeric : Option FloatVal :=
      match token with
      | [] => none
      | first :: _ =>
        if isDigitC first || first = Char.ofNat 45 || first = Char.ofNat 43 then
          parseF64 token
        else none
    match numeric with
    | some n => .number n
    | none =>
      if token = "true".toList then .bool true
      else if token = "false".toList then .bool false
      else if token = "null".toList then .null
      else if 2 ≤ token.length ∧ token.head? = some dquote ∧ token.getLast? = some dquote then
        .str ((token.drop 1).dropLast)
      else .symbol token

/-- The remaining tokens after a parsing step: a proper suffix of the
input (this carries the cursor-advance fact of the Rust `&mut &[&str]`
slice, which the termination argument needs). -/
def Rest (ts : List Tok) := {r : List Tok // r.length < ts.length ∧ r <:+ ts}

mutual

/-- Embedding of `parse` (`reader.rs:214`): error on exhausted tokens;
consume one token; `(` opens a list parsed by `parseManyAux`, `)` is an
unexpected closer, and anything else is an atom. -/
def parseAux : (ts : List Tok) → Except ParseError (Expression × Rest ts)
  | [] => .error .UnexpectedEOF
  | t :: rest =>
    if t = [lparen] then
      match parseManyAux rest with
      | .error e => .error e
      | .ok (es, ⟨r, hr⟩) =>
        .ok (.list es,
          ⟨r, Nat.lt_succ_of_lt hr.1, hr.2.trans (List.suffix_cons t rest)⟩)
    else if t = [rparen] then .error .UnexpectedClosingParen
    else .ok (parse_atom t, ⟨rest, Nat.lt_succ_self _, List.suffix_cons t rest⟩)
termination_by ts => (ts.length, 0)

/-- Embedding of the child-collecting loop inside `parse`'s `(` arm
(`reader.rs:226`): parse children until the next token is `)`, failing
with `MissingClosingParen` if the tokens run out first, then consume the
`)`. -/
def parseManyAux : (ts : List Tok) → Except ParseError (List Expression × Rest ts)
  | [] => .error .MissingClosingParen
  | t :: rest =>
    if t = [rparen] then
      .ok ([], ⟨rest, Nat.lt_succ_self _, List.suffix_cons t rest⟩)
    else
      match parseAux (t :: rest) with
      | .error e => .error e
      | .ok (_e, ⟨ts1, h1⟩) =>
        match parseManyAux ts1 with
        | .error e => .error e
        | .ok (es, ⟨r, h2⟩) =>
          .ok (_e :: es, ⟨r, Nat.lt_trans h2.1 h1.1, h2.2.trans h1.2⟩)
termination_by ts => (ts.length, 1)
decreasing_by
  · exact Prod.Lex.right _ (Nat.zero_lt_one)
  · exact Prod.Lex.left _ _ (by simpa using h1.1)

end

/-- `parse` with the termination instrumentation projected away: the
parsed expression together with the unconsumed remainder of the token
slice (the final state of the Rust `&mut &[&str]` cursor). -/
def parse (ts : List Tok) : Except ParseError (Expression × List Tok) :=
  (parseAux ts).map fun p => (p.1, p.2.val)

/-- The child-collecting loop, instrumentation projected away. -/
def parseMany (ts : List Tok) : Except ParseError (List Expression × List Tok) :=
  (parseManyAux ts).map fun p => (p.1, p.2.val)

/-- Embedding of `read` (`reader.rs:316`): tokenize, then parse one
expression; tokens left unconsumed by `parse` stay in the dropped cursor. -/
def read (src : List Char) : Except ParseError Expression :=
  (parse (tokenize src)).map fun p => p.1

/-- Embedding of `read_unchecked` (`reader.rs:348`): `read`, with the
panic on a parse error modeled as `none`. -/
def read_unchecked (src : List Char) : Option Expression :=
  match read src with
  | .ok e => some e
  | .error _ => none

mutual

/-- Embedding of `Expression::to_owned` (`reader.rs:129`): recursively
copy every node, turning borrowed text into owned text; the `iter().map`
over children becomes the mutual list walk `toOwnedList`. -/
def to_owned : Expression → OwnedExpression
  | .number n => .number n
  | .bool b => .bool b
  | .str s => .str (String.mk s)
  | .symbol s => .symbol (String.mk s)
  | .list xs => .list (toOwnedList xs)
  | .null => .null

/-- The element-wise `to_owned` over a child list. -/
def toOwnedList : List Expression → List OwnedExpression
  | [] => []
  | x :: xs => to_owned x :: toOwnedList xs

end

mutual

/-- Strip the ownership of an `OwnedExpression` back to the borrowed
form, for stating structural equality of `to_owned`'s result with its
input. -/
def stripOwn : OwnedExpression → Expression
  | .number n => .number n
  | .bool b => .bool b
  | .str s => .str s.toList
  | .symbol s => .symbol s.toList
  | .list xs => .list (stripOwnList xs)
  | .null => .null

/-- The element-wise `stripOwn` over a child list. -/
def stripOwnList : List OwnedExpression → List Expression
  | [] => []
  | x :: xs => stripOwn x :: stripOwnList xs

end

/-- The parenthesis contribution of one token: `(` opens (+1), `)` closes
(-1), everything else is neutral. -/
def tokDelta (t : Tok) : ℤ :=
  if t = [lparen] then 1 else if t = [rparen] then -1 else 0

/-- The running parenthesis balance of a token sequence. -/
def balance (ts : List Tok) : ℤ := (ts.map tokDelta).sum

/-- The claim's balance condition over a whole token stream: the
parentheses pair off exactly, and no prefix closes more than it has
opened (every `)` has a preceding unmatched `(` when it is consumed). -/
def WholeBalanced (ts : List Tok) : Prop :=
  balance ts = 0 ∧ ∀ n ≤ ts.length, 0 ≤ balance (ts.take n)

/-- The balance condition on some nonempty leading segment of the token
stream: the tokens read by a successful `parse` call. -/
def HasBalancedLead (ts : List Tok) : Prop :=
  ∃ n, 0 < n ∧ n ≤ ts.length ∧ balance (ts.take n) = 0 ∧
    ∀ m ≤ n, 0 ≤ balance (ts.take m)

/-- The balance condition on the leading segment read by the child loop
`parseMany`: it ends by consuming the closing `)` of the enclosing list,
so its balance is exactly -1, with no earlier prefix dipping below zero. -/
def ManyLead (ts : List Tok) : Prop :=
  ∃ n, n ≤ ts.length ∧ balance (ts.take n) = -1 ∧
    ∀ m < n, 0 ≤ balance (ts.take m)

/-! ### Step equations for the tokenizer -/

theorem tokenize_nil : tokenize [] = [] := by
  rw [tokenize.eq_def]

theorem tokenize_ws {c : Char} (cs : List Char) (h : isWs c = true) :
    tokenize (c :: cs) = tokenize cs := by
  rw [tokenize.eq_def]
  simp [h]

theorem tokenize_delim {c : Char} (cs : List Char) (h1 : isWs c = false)
    (h2 : isDelim c = true) :
    tokenize (c :: cs) = [c] :: tokenize cs := by
  rw [tokenize.eq_def]
  simp [h1, h2]

theorem tokenize_atom {c : Char} (cs : List Char) (h1 : isWs c = false)
    (h2 : isDelim c = false) :
    tokenize (c :: cs) =
      ((c :: cs).takeWhile isAtomChar) :: tokenize ((c :: cs).dropWhile isAtomChar) := by
  rw [tokenize.eq_def]
  simp [h1, h2]

/-! ### Step equations for the parser -/

theorem parse_nil : parse [] = .error .UnexpectedEOF := by
  rw [parse, parseAux.eq_def]
  rfl

theorem parseMany_nil : parseMany [] = .error .MissingClosingParen := by
  rw [parseMany, parseManyAux.eq_def]
  rfl

theorem parse_cons_lparen (rest : List Tok) :
    parse ([lparen] :: rest) =
      match parseMany rest with
      | .error e => .error e
      | .ok (es, r) => .ok (.list es, r) := by
  cases h : parseManyAux rest with
  | error e =>
    rw [parse, parseAux.eq_def]
    simp [h, parseMany, Except.map]
  | ok p =>
    obtain ⟨es, r, hr⟩ := p
    rw [parse, parseAux.eq_def]
    simp [h, parseMany, Except.map]

theorem parse_cons_rparen (rest : List Tok) :
    parse ([rparen] :: rest) = .error .UnexpectedClosingParen := by
  rw [parse, parseAux.eq_def]
  have hne : ([rparen] : Tok) ≠ [lparen] := by simp [lparen, rparen]
  simp [hne, Except.map]

theorem parse_cons_atom (t : Tok) (rest : List Tok)
    (h1 : t ≠ [lparen]) (h2 : t ≠ [rparen]) :
    parse (t :: rest) = .ok (parse_atom t, rest) := by
  rw [parse, parseAux.eq_def]
  simp [h1, h2, Except.map]

theorem parseMany_cons_rparen (rest : List Tok) :
    parseMany ([rparen] :: rest) = .ok ([], rest) := by
  rw [parseMany, parseManyAux.eq_def]
  rfl

theorem parseMany_cons (t : Tok) (rest : List Tok) (h : t ≠ [rparen]) :
    parseMany (t :: rest) =
      match parse (t :: rest) with
      | .error e => .error e
      | .ok (e, ts1) =>
        match parseMany ts1 with
        | .error e => .error e
        | .ok (es, r) => .ok (e :: es, r) := by
  cases hp : parseAux (t :: rest) with
  | error e =>
    rw [parseMany, parseManyAux.eq_def, parse]
    simp [h, hp, Except.map]
  | ok p =>
    obtain ⟨e, ts1, h1⟩ := p
    cases hq : parseManyAux ts1 with
    | error e2 =>
      rw [parseMany, parseManyAux.eq_def, parse]
      simp only [h, hp, hq, Except.map, if_neg]
      rw [parseMany, hq]
      rfl
    | ok q =>
      obtain ⟨es, r, hr⟩ := q
      rw [parseMany, parseManyAux.eq_def, parse]
      simp only [h, hp, hq, Except.map, if_neg]
      rw [parseMany, hq]
      rfl

/-- `parse` advances the cursor: the remainder is a strictly shorter
suffix of the input. -/
theorem parse_consumes {ts : List Tok} {e : Expression} {r : List Tok}
    (h : parse ts = .ok (e, r)) : r.length < ts.length ∧ r <:+ ts := by
  rw [parse] at h
  cases hp : parseAux ts with
  | error e2 => rw [hp] at h; exact absurd h (by simp [Except.map])
  | ok p =>
    rw [hp] at h
    simp only [Except.map, Except.ok.injEq] at h
    have hr : r = p.2.val := by
      have := congrArg Prod.snd h
      simpa using this.symm
    exact hr ▸ p.2.2

/-- `parseMany` advances the cursor: the remainder is a strictly shorter
suffix of the input. -/
theorem parseMany_consumes {ts : List Tok} {es : List Expression} {r : List Tok}
    (h : parseMany ts = .ok (es, r)) : r.length < ts.length ∧ r <:+ ts := by
  rw [parseMany] at h
  cases hp : parseManyAux ts with
  | error e2 => rw [hp] at h; exact absurd h (by simp [Except.map])
  | ok p =>
    rw [hp] at h
    simp only [Except.map, Except.ok.injEq] at h
    have hr : r = p.2.val := by
      have := congrArg Prod.snd h
      simpa using this.symm
    exact hr ▸ p.2.2

/-! ### Balance bookkeeping -/

theorem balance_nil : balance [] = 0 := rfl

theorem balance_cons (t : Tok) (ts : List Tok) :
    balance (t :: ts) = tokDelta t + balance ts := by
  simp [balance]

theorem balance_append (a b : List Tok) :
    balance (a ++ b) = balance a + balance b := by
  simp [balance]

theorem tokDelta_ge : ∀ t : Tok, -1 ≤ tokDelta t := by
  intro t
  rw [tokDelta]
  split
  · norm_num
  · split <;> norm_num

theorem tokDelta_atom {t : Tok} (h1 : t ≠ [lparen]) (h2 : t ≠ [rparen]) :
    tokDelta t = 0 := by
  rw [tokDelta, if_neg h1, if_neg h2]

theorem tokDelta_eq_neg_one {t : Tok} (h : tokDelta t = -1) : t = [rparen] := by
  rw [tokDelta] at h
  by_cases h1 : t = [lparen]
  · rw [if_pos h1] at h
    norm_num at h
  · rw [if_neg h1] at h
    by_cases h2 : t = [rparen]
    · exact h2
    · rw [if_neg h2] at h
      norm_num at h

/-- Balance of a prefix of an appended list, within the first part. -/
theorem balance_take_append_left {pre r : List Tok} {m : ℕ} (h : m ≤ pre.length) :
    balance ((pre ++ r).take m) = balance (pre.take m) := by
  rw [List.take_append_eq_append_take, Nat.sub_eq_zero_of_le h]
  simp

/-- Balance of a prefix of an appended list, past the first part. -/
theorem balance_take_append_right (pre r : List Tok) (m : ℕ) :
    balance ((pre ++ r).take (pre.length + m)) = balance pre + balance (r.take m) := by
  rw [List.take_append_eq_append_take, List.take_of_length_le (by omega),
    balance_append, Nat.add_sub_cancel_left]

/-- Soundness of the parser against the balance condition: a successful
`parse` consumed a nonempty leading segment of balance zero never dipping
below zero, and a successful `parseMany` consumed a segment of balance -1
whose proper prefixes never dip below zero. -/
theorem parser_sound :
    ∀ (n : ℕ) (ts : List Tok), ts.length ≤ n →
      (∀ (e : Expression) (r pre : List Tok),
        parse ts = .ok (e, r) → ts = pre ++ r →
        0 < pre.length ∧ balance pre = 0 ∧ ∀ m ≤ pre.length, 0 ≤ balance (pre.take m)) ∧
      (∀ (es : List Expression) (r pre : List Tok),
        parseMany ts = .ok (es, r) → ts = pre ++ r →
        balance pre = -1 ∧ ∀ m < pre.length, 0 ≤ balance (pre.take m)) := by
  intro n
  induction n with
  | zero =>
    intro ts hlen
    have hts : ts = [] := by
      cases ts with
      | nil => rfl
      | cons t rest => simp at hlen
    subst hts
    constructor
    · intro e r pre hp _
      rw [parse_nil] at hp
      exact absurd hp (by simp)
    · intro es r pre hp _
      rw [parseMany_nil] at hp
      exact absurd hp (by simp)
  | succ n ih =>
    intro ts hlen
    have hparse : ∀ (e : Expression) (r pre : List Tok),
        parse ts = .ok (e, r) → ts = pre ++ r →
        0 < pre.length ∧ balance pre = 0 ∧ ∀ m ≤ pre.length, 0 ≤ balance (pre.take m) := by
      intro e r pre hp hdec
      cases ts with
      | nil =>
        rw [parse_nil] at hp
        exact absurd hp (by simp)
      | cons t rest =>
        have hrest : rest.length ≤ n := by
          simp at hlen
          omega
        by_cases h1 : t = [lparen]
        · subst h1
          rw [parse_cons_lparen] at hp
          cases hq : parseMany rest with
          | error err =>
            rw [hq] at hp
            exact absurd hp (by simp)
          | ok p =>
            obtain ⟨es, r'⟩ := p
            rw [hq] at hp
            simp only [Except.ok.injEq, Prod.mk.injEq] at hp
            obtain ⟨he, hr⟩ := hp
            rw [← hr] at hdec
            obtain ⟨hlt, pre2, hpre2⟩ := parseMany_consumes hq
            have hpre : pre = [lparen] :: pre2 := by
              have hcat : pre ++ r' = ([lparen] :: pre2) ++ r' := by
                rw [← hdec, List.cons_append, hpre2]
              exact List.append_cancel_right hcat
            subst hpre
            obtain ⟨hb2, hm2⟩ := (ih rest hrest).2 es r' pre2 hq hpre2.symm
            refine ⟨by simp, ?_, ?_⟩
            · rw [balance_cons, hb2]
              simp [tokDelta]
            · intro m hm
              match m with
              | 0 => simp [balance_nil]
              | k + 1 =>
                rw [List.take_succ_cons, balance_cons]
                have hdl : tokDelta [lparen] = 1 := by simp [tokDelta]
                rw [hdl]
                have hk : k ≤ pre2.length := by simpa using hm
                rcases Nat.lt_or_ge k pre2.length with hk2 | hk2
                · have := hm2 k hk2
                  omega
                · have heq : pre2.take k = pre2 := List.take_of_length_le (by omega)
                  rw [heq, hb2]
                  norm_num
        · by_cases h2 : t = [rparen]
          · subst h2
            rw [parse_cons_rparen] at hp
            exact absurd hp (by simp)
          · rw [parse_cons_atom t rest h1 h2] at hp
            simp only [Except.ok.injEq, Prod.mk.injEq] at hp
            obtain ⟨he, hr⟩ := hp
            rw [← hr] at hdec
            have hpre : pre = [t] := by
              have hcat : pre ++ rest = [t] ++ rest := by
                rw [← hdec, List.singleton_append]
              exact List.append_cancel_right hcat
            subst hpre
            refine ⟨by simp, ?_, ?_⟩
            · rw [balance_cons, balance_nil, tokDelta_atom h1 h2]
              norm_num
            · intro m hm
              match m with
              | 0 => simp [balance_nil]
              | 1 =>
                rw [List.take_succ_cons]
                simp only [List.take_nil]
                rw [balance_cons, balance_nil, tokDelta_atom h1 h2]
                norm_num
    have hmany : ∀ (es : List Expression) (r pre : List Tok),
        parseMany ts = .ok (es, r) → ts = pre ++ r →
        balance pre = -1 ∧ ∀ m < pre.length, 0 ≤ balance (pre.take m) := by
      intro es r pre hp hdec
      cases ts with
      | nil =>
        rw [parseMany_nil] at hp
        exact absurd hp (by simp)
      | cons t rest =>
        by_cases h2 : t = [rparen]
        · subst h2
          rw [parseMany_cons_rparen] at hp
          simp only [Except.ok.injEq, Prod.mk.injEq] at hp
          obtain ⟨hes, hr⟩ := hp
          rw [← hr] at hdec
          have hpre : pre = [[rparen]] := by
            have hcat : pre ++ rest = [[rparen]] ++ rest := by
              rw [← hdec, List.singleton_append]
            exact List.append_cancel_right hcat
          subst hpre
          constructor
          · rw [balance_cons, balance_nil]
            simp [tokDelta, lparen, rparen]
          · intro m hm
            match m, hm with
            | 0, _ => simp [balance_nil]
        · rw [parseMany_cons t rest h2] at hp
          cases hq : parse (t :: rest) with
          | error err =>
            rw [hq] at hp
            exact absurd hp (by simp)
          | ok p =>
            obtain ⟨e1, ts1⟩ := p
            rw [hq] at hp
            dsimp only at hp
            cases hr2 : parseMany ts1 with
            | error err =>
              rw [hr2] at hp
              exact absurd hp (by simp)
            | ok q =>
              obtain ⟨es', r'⟩ := q
              rw [hr2] at hp
              simp only [Except.ok.injEq, Prod.mk.injEq] at hp
              obtain ⟨hes, hrr⟩ := hp
              subst hrr
              obtain ⟨hlt1, pre1, hpre1⟩ := parse_consumes hq
              obtain ⟨hlt2, pre2, hpre2⟩ := parseMany_consumes hr2
              obtain ⟨hpos1, hb1, hm1⟩ := hparse e1 ts1 pre1 hq hpre1.symm
              have hts1 : ts1.length ≤ n := by
                simp only [List.length_cons] at hlt1
                simp at hlen
                omega
              obtain ⟨hb2, hm2⟩ := (ih ts1 hts1).2 es' r' pre2 hr2 hpre2.symm
              have hpre : pre = pre1 ++ pre2 := by
                have hcat : pre ++ r' = (pre1 ++ pre2) ++ r' := by
                  rw [← hdec, List.append_assoc, hpre2, hpre1]
                exact List.append_cancel_right hcat
              subst hpre
              constructor
              · rw [balance_append, hb1, hb2]
                norm_num
              · intro m hm
                rcases le_or_lt m pre1.length with hm' | hm'
                · rw [balance_take_append_left hm']
                  exact hm1 m hm'
                · have hk : m - pre1.length < pre2.length := by
                    simp only [List.length_append] at hm
                    omega
                  have hmeq : m = pre1.length + (m - pre1.length) := by omega
                  rw [hmeq, balance_take_append_right, hb1]
                  simpa using hm2 _ hk
    exact ⟨hparse, hmany⟩

/-- Completeness of the parser against the balance condition: a nonempty
balanced leading segment makes `parse` succeed, and a leading segment
reaching balance -1 with no earlier dip makes `parseMany` succeed. -/
theorem parser_complete :
    ∀ (n : ℕ) (ts : List Tok), ts.length ≤ n →
      (HasBalancedLead ts → ∃ e r, parse ts = .ok (e, r)) ∧
      (ManyLead ts → ∃ es r, parseMany ts = .ok (es, r)) := by
  intro n
  induction n with
  | zero =>
    intro ts hlen
    have hts : ts = [] := by
      cases ts with
      | nil => rfl
      | cons t rest => simp at hlen
    subst hts
    constructor
    · rintro ⟨k, hk0, hk1, -, -⟩
      simp at hk1
      omega
    · rintro ⟨k, hk1, hkb, -⟩
      simp at hk1
      subst hk1
      rw [List.take_nil, balance_nil] at hkb
      exact absurd hkb (by norm_num)
  | succ n ih =>
    intro ts hlen
    have hparse : HasBalancedLead ts → ∃ e r, parse ts = .ok (e, r) := by
      rintro ⟨k, hk0, hklen, hkb, hkm⟩
      cases ts with
      | nil =>
        simp at hklen
        omega
      | cons t rest =>
        have hrest : rest.length ≤ n := by
          simp at hlen
          omega
        by_cases h1 : t = [lparen]
        · subst h1
          have hex : ∃ j, 0 < j ∧ j ≤ ([lparen] :: rest).length ∧
              balance (([lparen] :: rest).take j) = 0 ∧
              ∀ m ≤ j, 0 ≤ balance (([lparen] :: rest).take m) :=
            ⟨k, hk0, hklen, hkb, hkm⟩
          obtain ⟨n0, ⟨hs0, hs1, hs2, hs3⟩, hmin⟩ :
              ∃ n0, (0 < n0 ∧ n0 ≤ ([lparen] :: rest).length ∧
                balance (([lparen] :: rest).take n0) = 0 ∧
                ∀ m ≤ n0, 0 ≤ balance (([lparen] :: rest).take m)) ∧
              ∀ m < n0, ¬(0 < m ∧ m ≤ ([lparen] :: rest).length ∧
                balance (([lparen] :: rest).take m) = 0 ∧
                ∀ j ≤ m, 0 ≤ balance (([lparen] :: rest).take j)) :=
            ⟨Nat.find hex, Nat.find_spec hex, fun m hm => Nat.find_min hex hm⟩
          have h2le : 2 ≤ n0 := by
            rcases Nat.lt_or_ge n0 2 with hlt | hge
            · exfalso
              have h1eq : n0 = 1 := by omega
              rw [h1eq, List.take_succ_cons, List.take_zero, balance_cons,
                balance_nil] at hs2
              simp [tokDelta] at hs2
            · exact hge
          have hstrict : ∀ m, 1 ≤ m → m < n0 → 1 ≤ balance (([lparen] :: rest).take m) := by
            intro m hm1 hmn
            by_contra hcon
            push_neg at hcon
            have hge : 0 ≤ balance (([lparen] :: rest).take m) :=
              hs3 m (Nat.le_of_lt hmn)
            have heq : balance (([lparen] :: rest).take m) = 0 := by omega
            exact hmin m hmn
              ⟨hm1, Nat.le_trans (Nat.le_of_lt hmn) hs1, heq,
                fun j hj => hs3 j (Nat.le_trans hj (Nat.le_of_lt hmn))⟩
          have hdl : tokDelta [lparen] = 1 := by simp [tokDelta]
          have hlc : ([lparen] :: rest).length = rest.length + 1 := by simp
          have hml : ManyLead rest := by
            refine ⟨n0 - 1, ?_, ?_, ?_⟩
            · omega
            · have htk : ([lparen] :: rest).take n0 = [lparen] :: rest.take (n0 - 1) := by
                conv_lhs => rw [show n0 = (n0 - 1) + 1 by omega]
                rw [List.take_succ_cons]
              rw [htk, balance_cons, hdl] at hs2
              omega
            · intro m hm
              have htk : ([lparen] :: rest).take (m + 1) = [lparen] :: rest.take m :=
                List.take_succ_cons
              have hstep := hstrict (m + 1) (by omega) (by omega)
              rw [htk, balance_cons, hdl] at hstep
              omega
          obtain ⟨es, r, hq⟩ := (ih rest hrest).2 hml
          exact ⟨.list es, r, by rw [parse_cons_lparen, hq]⟩
        · by_cases h2 : t = [rparen]
          · exfalso
            subst h2
            have hm1 := hkm 1 hk0
            rw [List.take_succ_cons, List.take_zero, balance_cons, balance_nil] at hm1
            simp [tokDelta, lparen, rparen] at hm1
          · exact ⟨parse_atom t, rest, parse_cons_atom t rest h1 h2⟩
    have hmany : ManyLead ts → ∃ es r, parseMany ts = .ok (es, r) := by
      rintro ⟨k, hklen, hkb, hkm⟩
      cases ts with
      | nil =>
        simp at hklen
        subst hklen
        rw [List.take_nil, balance_nil] at hkb
        exact absurd hkb (by norm_num)
      | cons t rest =>
        by_cases h2 : t = [rparen]
        · subst h2
          exact ⟨[], rest, parseMany_cons_rparen rest⟩
        · have hk0 : 0 < k := by
            rcases Nat.eq_zero_or_pos k with h0 | hpos
            · subst h0
              rw [List.take_zero, balance_nil] at hkb
              exact absurd hkb (by norm_num)
            · exact hpos
          have hk1 : k ≠ 1 := by
            intro h1eq
            subst h1eq
            rw [List.take_succ_cons, List.take_zero, balance_cons, balance_nil] at hkb
            have ht : tokDelta t = -1 := by omega
            exact h2 (tokDelta_eq_neg_one ht)
          have hidx : k - 1 < (t :: rest).length := by
            simp only [List.length_cons]
            simp only [List.length_cons] at hklen
            omega
          have hsome := List.getElem?_eq_getElem hidx
          have hb' : balance ((t :: rest).take k) =
              balance ((t :: rest).take (k - 1)) + tokDelta ((t :: rest)[k - 1]) := by
            conv_lhs => rw [show k = (k - 1) + 1 by omega, List.take_succ, hsome]
            rw [balance_append]
            simp [balance_cons, balance_nil]
          have hprev : 0 ≤ balance ((t :: rest).take (k - 1)) := hkm (k - 1) (by omega)
          have hdelta : -1 ≤ tokDelta ((t :: rest)[k - 1]) := tokDelta_ge _
          have h0 : balance ((t :: rest).take (k - 1)) = 0 := by omega
          have hbl : HasBalancedLead (t :: rest) :=
            ⟨k - 1, by omega, by omega, h0, fun m hm => hkm m (by omega)⟩
          obtain ⟨e1, ts1, hq⟩ := hparse hbl
          obtain ⟨hlt1, pre1, hpre1⟩ := parse_consumes hq
          obtain ⟨hpos1, hb1, hm1⟩ :=
            (parser_sound (t :: rest).length (t :: rest) le_rfl).1 e1 ts1 pre1 hq hpre1.symm
          have hplen : pre1.length < k := by
            by_contra hcon
            push_neg at hcon
            have heq : balance ((t :: rest).take k) = balance (pre1.take k) := by
              rw [← hpre1]
              exact balance_take_append_left hcon
            have hge := hm1 k hcon
            omega
          have hlensum : (t :: rest).length = pre1.length + ts1.length := by
            rw [← hpre1]
            simp
          have hml : ManyLead ts1 := by
            refine ⟨k - pre1.length, ?_, ?_, ?_⟩
            · omega
            · have harr := balance_take_append_right pre1 ts1 (k - pre1.length)
              rw [hpre1, show pre1.length + (k - pre1.length) = k by omega] at harr
              omega
            · intro m hm
              have harr := balance_take_append_right pre1 ts1 m
              rw [hpre1] at harr
              have hin := hkm (pre1.length + m) (by omega)
              omega
          have hts1 : ts1.length ≤ n := by
            simp only [List.length_cons] at hlt1
            simp only [List.length_cons] at hlen
            omega
          obtain ⟨es', r', hq2⟩ := (ih ts1 hts1).2 hml
          refine ⟨e1 :: es', r', ?_⟩
          rw [parseMany_cons t rest h2, hq]
          dsimp only
          rw [hq2]
    exact ⟨hparse, hmany⟩

/-! ### Claim theorems: concrete behaviour of `read` -/

/-- C1: `read "(define x 42)"` is the list `[Symbol "define", Symbol "x",
Number 42.0]`; `read "-3.14"` is `Number (-3.14)`; `read "true"` is
`Bool true`; `read "null"` is `Null`. -/
theorem c1_read_examples :
    read "(define x 42)".toList =
      .ok (.list [.symbol "define".toList, .symbol "x".toList,
        .number (.finite 42)]) ∧
    read "-3.14".toList = .ok (.number (.finite (-3.14 : ℚ))) ∧
    read "true".toList = .ok (.bool true) ∧
    read "null".toList = .ok .null := by
  refine ⟨?_, ?_, ?_, ?_⟩
  · have ht : tokenize "(define x 42)".toList =
        [[lparen], "define".toList, "x".toList, "42".toList, [rparen]] := by
      simp [tokenize, isWs, isDelim, isAtomChar, lparen, rparen, quoteCh]
    rw [read, ht, parse_cons_lparen]
    rw [parseMany_cons _ _ (by simp [lparen, rparen])]
    rw [parse_cons_atom _ _ (by simp [lparen]) (by simp [rparen])]
    dsimp only
    rw [parseMany_cons _ _ (by simp [rparen])]
    rw [parse_cons_atom _ _ (by simp [lparen]) (by simp [rparen])]
    dsimp only
    rw [parseMany_cons _ _ (by simp [rparen])]
    rw [parse_cons_atom _ _ (by simp [lparen]) (by simp [rparen])]
    dsimp only
    rw [parseMany_cons_rparen]
    simp [parse_atom, parseF64, isDigitC, digitsToNat, signApply, dquote,
      List.takeWhile, List.dropWhile, Except.map]
  · have ht : tokenize "-3.14".toList = ["-3.14".toList] := by
      simp [tokenize, isWs, isDelim, isAtomChar, lparen, rparen, quoteCh]
    rw [read, ht]
    rw [parse_cons_atom _ _ (by simp [lparen]) (by simp [rparen])]
    simp [parse_atom, parseF64, isDigitC, digitsToNat, signApply, dquote,
      List.takeWhile, List.dropWhile, Except.map]
    norm_num
  · have ht : tokenize "true".toList = ["true".toList] := by
      simp [tokenize, isWs, isDelim, isAtomChar, lparen, rparen, quoteCh]
    rw [read, ht]
    rw [parse_cons_atom _ _ (by simp [lparen]) (by simp [rparen])]
    rfl
  · have ht : tokenize "null".toList = ["null".toList] := by
      simp [tokenize, isWs, isDelim, isAtomChar, lparen, rparen, quoteCh]
    rw [read, ht]
    rw [parse_cons_atom _ _ (by simp [lparen]) (by simp [rparen])]
    rfl

/-- C4: each failure case surfaces as exactly the matching error kind:
empty source gives `UnexpectedEOF`, an unterminated list gives
`MissingClosingParen`, and a leading closer gives `UnexpectedClosingParen`. -/
theorem c4_read_error_kinds :
    read "".toList = .error .UnexpectedEOF ∧
    read "(unclosed".toList = .error .MissingClosingParen ∧
    read ")unexpected".toList = .error .UnexpectedClosingParen := by
  refine ⟨?_, ?_, ?_⟩
  · rw [read, show ("".toList : List Char) = [] from rfl, tokenize_nil, parse_nil]
    rfl
  · have ht : tokenize "(unclosed".toList = [[lparen], "unclosed".toList] := by
      simp [tokenize, isWs, isDelim, isAtomChar, lparen, rparen, quoteCh]
    rw [read, ht, parse_cons_lparen]
    rw [parseMany_cons _ _ (by simp [rparen])]
    rw [parse_cons_atom _ _ (by simp [lparen]) (by simp [rparen])]
    dsimp only
    rw [parseMany_nil]
    rfl
  · have ht : tokenize ")unexpected".toList = [[rparen], "unexpected".toList] := by
      simp [tokenize, isWs, isDelim, isAtomChar, lparen, rparen, quoteCh]
    rw [read, ht, parse_cons_rparen]
    rfl

/-- C10: `read "()"` is the empty list, and in general a `(` immediately
followed by `)` parses to a `List` with zero children wherever the parser
is invoked, the remainder being the tokens after the pair. -/
theorem c10_empty_parens :
    read "()".toList = .ok (.list []) ∧
    ∀ ts : List Tok, parse ([lparen] :: [rparen] :: ts) = .ok (.list [], ts) := by
  constructor
  · have ht : tokenize "()".toList = [[lparen], [rparen]] := by
      simp [tokenize, isWs, isDelim, isAtomChar, lparen, rparen, quoteCh]
    rw [read, ht, parse_cons_lparen, parseMany_cons_rparen]
    rfl
  · intro ts
    rw [parse_cons_lparen, parseMany_cons_rparen]

/-- C3 counterexample: on the source `"()("` the token stream is not
balanced (a `(` too many), yet `read` succeeds: it parses the leading
`()` and ignores the trailing `(`.  So success is not equivalent to the
whole token stream being balanced. -/
theorem c3_counterexample :
    (∃ e, read "()(".toList = .ok e) ∧ ¬ WholeBalanced (tokenize "()(".toList) := by
  have ht : tokenize "()(".toList = [[lparen], [rparen], [lparen]] := by
    simp [tokenize, isWs, isDelim, isAtomChar, lparen, rparen, quoteCh]
  constructor
  · refine ⟨.list [], ?_⟩
    rw [read, ht, parse_cons_lparen, parseMany_cons_rparen]
    rfl
  · rintro ⟨hb, -⟩
    rw [ht, balance_cons, balance_cons, balance_cons, balance_nil] at hb
    simp [tokDelta, lparen, rparen] at hb

/-- C3 as amended: `read src` succeeds exactly when some nonempty leading
segment of the token stream is balanced — its parentheses pair off
exactly and every `)` in it has a preceding unmatched `(` at the point it
is consumed.  (The claim's condition on the whole stream fails: tokens
after the first complete expression are ignored, see the counterexample.) -/
theorem c3_success_iff_balanced_lead :
    ∀ src : List Char, (∃ e, read src = .ok e) ↔ HasBalancedLead (tokenize src) := by
  intro src
  constructor
  · rintro ⟨e, he⟩
    rw [read] at he
    cases hp : parse (tokenize src) with
    | error err =>
      rw [hp] at he
      exact absurd he (by simp [Except.map])
    | ok p =>
      obtain ⟨e', r⟩ := p
      obtain ⟨hlt, pre, hpre⟩ := parse_consumes hp
      obtain ⟨hpos, hb, hm⟩ :=
        (parser_sound (tokenize src).length _ le_rfl).1 e' r pre hp hpre.symm
      refine ⟨pre.length, hpos, ?_, ?_, ?_⟩
      · rw [← hpre]
        simp
      · rw [← hpre, balance_take_append_left le_rfl, List.take_length]
        exact hb
      · intro m hm'
        rw [← hpre, balance_take_append_left hm']
        exact hm m hm'
  · intro hbl
    obtain ⟨e, r, hp⟩ := (parser_complete (tokenize src).length _ le_rfl).1 hbl
    exact ⟨e, by rw [read, hp]; rfl⟩

/-- C5: when the token stream of a source begins with a complete
expression followed by further tokens, `read` returns that first
expression and silently drops the trailing tokens. -/
theorem c5_trailing_tokens_ignored :
    ∀ (src : List Char) (e : Expression) (rest : List Tok),
      parse (tokenize src) = .ok (e, rest) → rest ≠ [] → read src = .ok e := by
  intro src e rest h _hne
  rw [read, h]
  rfl

/-- C5 witness: `read "a b"` yields `Symbol "a"` and ignores the trailing
token `"b"`. -/
theorem c5_witness : read "a b".toList = .ok (.symbol "a".toList) := by
  have ht : tokenize "a b".toList = ["a".toList, "b".toList] := by
    simp [tokenize, isWs, isDelim, isAtomChar, lparen, rparen, quoteCh]
  exact c5_trailing_tokens_ignored "a b".toList (.symbol "a".toList) ["b".toList]
    (by rw [ht, parse_cons_atom _ _ (by simp [lparen]) (by simp [rparen])]; rfl)
    (by simp)

/-- C9: `read_unchecked` agrees with `read` on every success, and aborts
(modeled as `none`) exactly on the sources where `read` reports an error. -/
theorem c9_read_unchecked_agrees :
    (∀ (src : List Char) (e : Expression),
      read src = .ok e ↔ read_unchecked src = some e) ∧
    (∀ src : List Char,
      read_unchecked src = none ↔ ∃ err, read src = .error err) := by
  constructor
  · intro src e
    cases h : read src <;> simp [read_unchecked, h]
  · intro src
    cases h : read src <;> simp [read_unchecked, h]

/-! ### Claim theorems: ownership conversion -/

mutual

/-- Stripping the ownership of `to_owned`'s result restores the input
expression exactly. -/
theorem stripOwn_to_owned : ∀ e : Expression, stripOwn (to_owned e) = e
  | .number _ => rfl
  | .bool _ => rfl
  | .str _ => rfl
  | .symbol _ => rfl
  | .list xs => by
    rw [to_owned, stripOwn, stripOwnList_toOwnedList xs]
  | .null => rfl

/-- Element-wise version of `stripOwn_to_owned`. -/
theorem stripOwnList_toOwnedList :
    ∀ xs : List Expression, stripOwnList (toOwnedList xs) = xs
  | [] => rfl
  | x :: xs => by
    rw [toOwnedList, stripOwnList, stripOwn_to_owned x, stripOwnList_toOwnedList xs]

end

/-- C6: `to_owned` is total (a Lean function) and structurally faithful:
stripping the ownership from `to_owned e` gives back `e` itself — the same
variant at every node, the same values, and the same list order, length
and nesting. -/
theorem c6_to_owned_structural : ∀ e : Expression, stripOwn (to_owned e) = e :=
  fun e => stripOwn_to_owned e

/-! ### Claim theorems: the tokenizer -/

/-- Every token `tokenize` emits is nonempty, and is either a standalone
structural delimiter or made entirely of atom characters. -/
theorem tokenize_tokens_shape :
    ∀ (src : List Char) (t : Tok), t ∈ tokenize src →
      t ≠ [] ∧ ((∃ c, isDelim c = true ∧ t = [c]) ∨ ∀ c ∈ t, isAtomChar c = true) := by
  have hdw : ∀ l : List Char, (l.dropWhile isAtomChar).length ≤ l.length := by
    intro l
    induction l with
    | nil => simp
    | cons a as ih2 =>
      by_cases hp : isAtomChar a
      · rw [List.dropWhile_cons_of_pos hp]
        exact Nat.le_trans ih2 (Nat.le_succ _)
      · rw [List.dropWhile_cons_of_neg hp]
  have key : ∀ (n : ℕ) (src : List Char), src.length ≤ n → ∀ t ∈ tokenize src,
      t ≠ [] ∧ ((∃ c, isDelim c = true ∧ t = [c]) ∨ ∀ c ∈ t, isAtomChar c = true) := by
    intro n
    induction n with
    | zero =>
      intro src hlen t ht
      match src with
      | [] =>
        rw [tokenize_nil] at ht
        exact absurd ht (by simp)
    | succ n ih =>
      intro src hlen t ht
      match src with
      | [] =>
        rw [tokenize_nil] at ht
        exact absurd ht (by simp)
      | c :: cs =>
        have hcs : cs.length ≤ n := by
          simpa using hlen
        by_cases hw : isWs c
        · rw [tokenize_ws cs hw] at ht
          exact ih cs hcs t ht
        · by_cases hd : isDelim c
          · rw [tokenize_delim cs (by simp [hw]) hd] at ht
            rcases List.mem_cons.mp ht with h | h
            · exact ⟨by simp [h], .inl ⟨c, hd, h⟩⟩
            · exact ih cs hcs t h
          · have hc : isAtomChar c = true := by
              simp [isAtomChar, hw, hd]
            rw [tokenize_atom cs (by simp [hw]) (by simp [hd])] at ht
            rcases List.mem_cons.mp ht with h | h
            · refine ⟨?_, .inr ?_⟩
              · rw [h, List.takeWhile_cons_of_pos hc]
                simp
              · intro a ha
                rw [h] at ha
                exact List.mem_takeWhile_imp ha
            · have hdrop : (c :: cs).dropWhile isAtomChar = cs.dropWhile isAtomChar := by
                rw [List.dropWhile_cons_of_pos hc]
              rw [hdrop] at h
              exact ih _ (Nat.le_trans (hdw cs) hcs) t h
  intro src t ht
  exact key src.length src le_rfl t ht

/-- A structural delimiter character is never whitespace. -/
theorem isDelim_not_ws {a : Char} (ha : isDelim a = true) : isWs a = false := by
  simp only [isDelim, Bool.or_eq_true, decide_eq_true_eq] at ha
  rcases ha with (h | h) | h <;> subst h <;> decide

/-- Source order and losslessness: concatenating the emitted tokens
restores exactly the source's non-whitespace characters, in source
order.  In particular every occurrence of `(`, `)` or the quote
character in the source reaches the token output. -/
theorem tokenize_flatten :
    ∀ src : List Char, (tokenize src).flatten = src.filter (fun c => !(isWs c)) := by
  have hdw : ∀ l : List Char, (l.dropWhile isAtomChar).length ≤ l.length := by
    intro l
    induction l with
    | nil => simp
    | cons a as ih2 =>
      by_cases hp : isAtomChar a
      · rw [List.dropWhile_cons_of_pos hp]
        exact Nat.le_trans ih2 (Nat.le_succ _)
      · rw [List.dropWhile_cons_of_neg hp]
  have key : ∀ (n : ℕ) (src : List Char), src.length ≤ n →
      (tokenize src).flatten = src.filter (fun c => !(isWs c)) := by
    intro n
    induction n with
    | zero =>
      intro src hlen
      match src with
      | [] => rw [tokenize_nil]; rfl
    | succ n ih =>
      intro src hlen
      match src with
      | [] => rw [tokenize_nil]; rfl
      | c :: cs =>
        have hcs : cs.length ≤ n := by simpa using hlen
        by_cases hw : isWs c
        · rw [tokenize_ws cs hw, List.filter_cons, if_neg (by simp [hw])]
          exact ih cs hcs
        · by_cases hd : isDelim c
          · rw [tokenize_delim cs (by simp [hw]) hd, List.flatten_cons, List.filter_cons,
              if_pos (by simp [hw]), List.singleton_append]
            exact congrArg (List.cons c) (ih cs hcs)
          · have hc : isAtomChar c = true := by
              simp [isAtomChar, hw, hd]
            rw [tokenize_atom cs (by simp [hw]) (by simp [hd]), List.flatten_cons]
            conv_rhs => rw [← List.takeWhile_append_dropWhile isAtomChar (c :: cs)]
            rw [List.filter_append]
            have h1 : List.filter (fun a => !(isWs a)) ((c :: cs).takeWhile isAtomChar)
                = (c :: cs).takeWhile isAtomChar := by
              rw [List.filter_eq_self]
              intro a ha
              have haa := List.mem_takeWhile_imp ha
              simp only [isAtomChar, Bool.and_eq_true, Bool.not_eq_true'] at haa
              simp [haa.1]
            rw [h1]
            have hlen2 : ((c :: cs).dropWhile isAtomChar).length ≤ n := by
              rw [List.dropWhile_cons_of_pos hc]
              exact Nat.le_trans (hdw cs) hcs
            exact congrArg _ (ih _ hlen2)
  intro src
  exact key src.length src le_rfl

/-- Every occurrence of a structural delimiter in the source is emitted
as its own single-character token: for each delimiter character `c` the
number of `[c]` tokens equals the number of occurrences of `c` in the
source (and by `tokenize_tokens_shape` no other token contains `c`). -/
theorem tokenize_delim_count :
    ∀ (src : List Char) (c : Char), isDelim c = true →
      (tokenize src).count [c] = src.count c := by
  have hdw : ∀ l : List Char, (l.dropWhile isAtomChar).length ≤ l.length := by
    intro l
    induction l with
    | nil => simp
    | cons a as ih2 =>
      by_cases hp : isAtomChar a
      · rw [List.dropWhile_cons_of_pos hp]
        exact Nat.le_trans ih2 (Nat.le_succ _)
      · rw [List.dropWhile_cons_of_neg hp]
  have key : ∀ (n : ℕ) (src : List Char), src.length ≤ n → ∀ c : Char, isDelim c = true →
      (tokenize src).count [c] = src.count c := by
    intro n
    induction n with
    | zero =>
      intro src hlen c hc
      match src with
      | [] => rw [tokenize_nil]; rfl
    | succ n ih =>
      intro src hlen c hc
      match src with
      | [] => rw [tokenize_nil]; rfl
      | c' :: cs =>
        have hcs : cs.length ≤ n := by simpa using hlen
        by_cases hw : isWs c'
        · rw [tokenize_ws cs hw, List.count_cons]
          have hne : c' ≠ c := by
            intro h
            rw [h, isDelim_not_ws hc] at hw
            exact absurd hw (by simp)
          rw [if_neg (by simp [hne]), add_zero]
          exact ih cs hcs c hc
        · by_cases hd : isDelim c'
          · rw [tokenize_delim cs (by simp [hw]) hd]
            simp only [List.count_cons, beq_iff_eq, List.cons.injEq, and_true]
            rw [ih cs hcs c hc]
          · have hc' : isAtomChar c' = true := by
              simp [isAtomChar, hw, hd]
            rw [tokenize_atom cs (by simp [hw]) (by simp [hd]), List.count_cons]
            have htokne : ((c' :: cs).takeWhile isAtomChar) ≠ [c] := by
              rw [List.takeWhile_cons_of_pos hc']
              intro h
              have hcc : c' = c := (List.cons_eq_cons.mp h).1
              rw [hcc] at hc'
              simp [isAtomChar, hc] at hc'
            rw [if_neg (by simp only [beq_iff_eq]; exact htokne), add_zero]
            conv_rhs => rw [← List.takeWhile_append_dropWhile isAtomChar (c' :: cs)]
            rw [List.count_append]
            have h0 : ((c' :: cs).takeWhile isAtomChar).count c = 0 := by
              rw [List.count_eq_zero]
              intro hmem
              have haa := List.mem_takeWhile_imp hmem
              simp [isAtomChar, hc] at haa
            rw [h0, zero_add]
            have hlen2 : ((c' :: cs).dropWhile isAtomChar).length ≤ n := by
              rw [List.dropWhile_cons_of_pos hc']
              exact Nat.le_trans (hdw cs) hcs
            exact ih _ hlen2 c hc
  intro src c hc
  exact key src.length src le_rfl c hc

/-- C7: for every source the tokenizer emits no empty token; each token
is a standalone structural delimiter or consists entirely of atom
characters (so delimiters are never merged into a surrounding atom);
the concatenated tokens restore the source minus whitespace in source
order; each of `(`, `)` and the quote character appears as its own
single-character token as many times as it occurs in the source;
concretely `"(foo)"` splits into `(`, `foo`, `)`, and the text
`"hello world"` (with its quotes) splits into the two atoms `"hello`
and `world"`. -/
theorem c7_tokenize_shape :
    (∀ (src : List Char) (t : Tok), t ∈ tokenize src →
      t ≠ [] ∧ ((∃ c, isDelim c = true ∧ t = [c]) ∨ ∀ c ∈ t, isAtomChar c = true)) ∧
    (∀ src : List Char, (tokenize src).flatten = src.filter (fun c => !(isWs c))) ∧
    (∀ (src : List Char) (c : Char), isDelim c = true →
      (tokenize src).count [c] = src.count c) ∧
    tokenize "(foo)".toList = [[lparen], "foo".toList, [rparen]] ∧
    tokenize "\"hello world\"".toList = ["\"hello".toList, "world\"".toList] := by
  refine ⟨tokenize_tokens_shape, tokenize_flatten, tokenize_delim_count, ?_, ?_⟩
  · simp [tokenize, isWs, isDelim, isAtomChar, lparen, rparen, quoteCh]
  · simp [tokenize, isWs, isDelim, isAtomChar, lparen, rparen, quoteCh]

/-! ### Claim theorems: atom classification -/

/-- C8: a token of length at least two that starts and ends with a double
quote (and hence matches no earlier classification rule) classifies as a
string literal with exactly one quote stripped from each end and no escape
processing. -/
theorem c8_string_literal :
    ∀ t : Tok, 2 ≤ t.length → t.head? = some dquote → t.getLast? = some dquote →
      parse_atom t = .str ((t.drop 1).dropLast) := by
  intro t hlen hh hl
  match t, hh with
  | c :: rest, hh =>
    have hc : c = dquote := by simpa using hh
    subst hc
    rw [parse_atom, if_neg (by omega)]
    have hnum : (isDigitC dquote || dquote = Char.ofNat 45 || dquote = Char.ofNat 43)
        = false := by decide
    simp only [hnum, Bool.false_eq_true, if_false]
    have h1 : dquote :: rest ≠ "true".toList := by
      intro h
      have := congrArg List.head? h
      simp [dquote] at this
    have h2 : dquote :: rest ≠ "false".toList := by
      intro h
      have := congrArg List.head? h
      simp [dquote] at this
    have h3 : dquote :: rest ≠ "null".toList := by
      intro h
      have := congrArg List.head? h
      simp [dquote] at this
    rw [if_neg h1, if_neg h2, if_neg h3, if_pos ⟨hlen, by simp, hl⟩]

/-- C8 witness: the token `"hi"` (quotes included) classifies as the
string `hi`. -/
theorem c8_witness : parse_atom "\"hi\"".toList = .str "hi".toList := by
  have h := c8_string_literal "\"hi\"".toList (by decide) (by decide) (by decide)
  simpa using h

/-- C2 counterexample: the token `5` — length one, first character an ASCII
digit — parses as an `f64` (value 5), yet the classifier returns
`Symbol "5"`, not `Number 5.0`: the single-character fast path short-circuits
before numeric parsing, so the claim fails at this input. -/
theorem c2_counterexample :
    parseF64 "5".toList = some (.finite 5) ∧
    parse_atom "5".toList = .symbol "5".toList ∧
    parse_atom "5".toList ≠ .number (.finite 5) := by
  refine ⟨?_, rfl, by simp [parse_atom]⟩
  simp [parseF64, isDigitC, digitsToNat, signApply, List.takeWhile, List.dropWhile]

/-- C2 as amended: for a token of length other than one whose first
character is an ASCII digit, `+` or `-`, the classifier attempts the
full-token `f64` parse, returns `Number` on success, and falls back to
`Symbol` on numeric-parse failure; a token of length one always
classifies as `Symbol`, the fast path short-circuiting before numeric
parsing. -/
theorem c2_numeric_fast_path :
    (∀ (t : Tok) (c : Char), t.head? = some c →
      (isDigitC c || c = Char.ofNat 45 || c = Char.ofNat 43) = true →
      t.length ≠ 1 →
      ((∀ v, parseF64 t = some v → parse_atom t = .number v) ∧
       (parseF64 t = none → parse_atom t = .symbol t))) ∧
    (∀ t : Tok, t.length = 1 → parse_atom t = .symbol t) := by
  constructor
  · intro t c hh hc hlen
    match t, hh with
    | a :: rest, hh =>
      have hac : a = c := by simpa using hh
      rw [← hac] at hc
      constructor
      · intro v hv
        rw [parse_atom, if_neg hlen]
        simp only [hc, if_true, hv]
      · intro hv
        rw [parse_atom, if_neg hlen]
        simp only [hc, if_true, hv]
        have h1 : a :: rest ≠ "true".toList := by
          intro h
          have hc1 : a = Char.ofNat 116 := by
            have := congrArg List.head? h
            simpa using this
          rw [hc1] at hc
          exact absurd hc (by decide)
        have h2 : a :: rest ≠ "false".toList := by
          intro h
          have hc1 : a = Char.ofNat 102 := by
            have := congrArg List.head? h
            simpa using this
          rw [hc1] at hc
          exact absurd hc (by decide)
        have h3 : a :: rest ≠ "null".toList := by
          intro h
          have hc1 : a = Char.ofNat 110 := by
            have := congrArg List.head? h
            simpa using this
          rw [hc1] at hc
          exact absurd hc (by decide)
        have h4 : ¬(2 ≤ (a :: rest).length ∧ (a :: rest).head? = some dquote ∧
            (a :: rest).getLast? = some dquote) := by
          rintro ⟨-, hh2, -⟩
          have hc1 : a = dquote := by simpa using hh2
          rw [hc1] at hc
          exact absurd hc (by decide)
        rw [if_neg h1, if_neg h2, if_neg h3, if_neg h4]
  · intro t h1
    rw [parse_atom.eq_def, if_pos h1]

/-- C2 witness: the two-character token `42` goes down the numeric path
and classifies as `Number 42.0`. -/
theorem c2_witness : parse_atom "42".toList = .number (.finite 42) := by
  refine (c2_numeric_fast_path.1 "42".toList (Char.ofNat 52) (by decide) (by decide)
    (by decide)).1 (.finite 42) ?_
  simp [parseF64, isDigitC, digitsToNat, signApply, List.takeWhile, List.dropWhile]

end SExpr
